import Mathlib

/-!
# Verification of the listen portfolio pipeline

Shallow embedding of the portfolio-resolution core of the `listen`
repository, together with proofs about it:

* `aggregatePortfolioItems` and its helpers
  (`src/listen-interface/src/lib/portfolioHelpers.ts`);
* the `RateLimiter` sliding-window/backoff wrapper and
  `enrichTokenMetadata` (`src/listen-interface/src/lib/evmPortfolio.ts`);
* the dust filter and total-balance computation of the `Portfolio`
  component (`src/listen-interface/src/components/Portfolio.tsx`);
* the `DenylistCache` (`denylistCache.ts`).

JavaScript numbers are modelled as exact rationals (`Rat`), timestamps as
integers (`Int`).  A JavaScript `Map` is modelled as an association list in
insertion order: `Map.set` on an existing key overwrites the value in
place, otherwise it appends, which matches the iteration order of
`Map.values()`.
-/

namespace Listen

/-- JS `Map` model: overwrite in place if the key is present, else append
(matches `Map.prototype.set` and preserves `Map.values()` order). -/
def mapSet {α : Type} (m : List (String × α)) (k : String) (v : α) :
    List (String × α) :=
  match m with
  | [] => [(k, v)]
  | (k', v') :: rest =>
      if k' = k then (k, v) :: rest else (k', v') :: mapSet rest k v

/-- JS `Map.get` model: first binding of the key, if any. -/
def mapGet {α : Type} (m : List (String × α)) (k : String) : Option α :=
  match m with
  | [] => none
  | (k', v') :: rest => if k' = k then some v' else mapGet rest k

/-- Key-wise deletion (IndexedDB `store.delete(key)`). -/
def mapDelete {α : Type} (m : List (String × α)) (k : String) :
    List (String × α) :=
  m.filter (fun kv => kv.1 ≠ k)

theorem mapGet_mapSet_self {α : Type} (m : List (String × α)) (k : String)
    (v : α) : mapGet (mapSet m k v) k = some v := by
  induction m with
  | nil => simp [mapSet, mapGet]
  | cons kv rest ih =>
      obtain ⟨k', v'⟩ := kv
      by_cases h : k' = k <;> simp [mapSet, mapGet, h, ih]

theorem mapGet_mapSet_ne {α : Type} (m : List (String × α)) (k k' : String)
    (v : α) (h : k' ≠ k) : mapGet (mapSet m k' v) k = mapGet m k := by
  induction m with
  | nil => simp [mapSet, mapGet, h]
  | cons kv rest ih =>
      obtain ⟨k₀, v₀⟩ := kv
      by_cases h₀ : k₀ = k'
      · subst h₀; simp [mapSet, mapGet, h]
      · simp [mapSet, h₀]
        by_cases h₁ : k₀ = k <;> simp [mapGet, h₁, ih]

theorem mem_mapSet {α : Type} (m : List (String × α)) (k : String) (v : α)
    (kv : String × α) (h : kv ∈ mapSet m k v) : kv = (k, v) ∨ kv ∈ m := by
  induction m with
  | nil => simpa [mapSet] using h
  | cons kv₀ rest ih =>
      obtain ⟨k₀, v₀⟩ := kv₀
      by_cases h₀ : k₀ = k
      · subst h₀
        simp [mapSet] at h
        rcases h with h | h
        · exact Or.inl h
        · exact Or.inr (List.mem_cons_of_mem _ h)
      · simp [mapSet, h₀] at h
        rcases h with h | h
        · exact Or.inr (by simp [h])
        · rcases ih h with h' | h'
          · exact Or.inl h'
          · exact Or.inr (List.mem_cons_of_mem _ h')

theorem mapGet_mem {α : Type} (m : List (String × α)) (k : String) (v : α)
    (h : mapGet m k = some v) : (k, v) ∈ m := by
  induction m with
  | nil => simp [mapGet] at h
  | cons kv rest ih =>
      obtain ⟨k₀, v₀⟩ := kv
      by_cases h₀ : k₀ = k
      · subst h₀
        simp [mapGet] at h
        simp [h]
      · simp [mapGet, h₀] at h
        exact List.mem_cons_of_mem _ (ih h)

/-- ASCII uppercase of one character (JS `toUpperCase` restricted to
ASCII, which covers every string the pipeline handles). -/
def asciiUpperChar (c : Char) : Char :=
  if 'a' ≤ c ∧ c ≤ 'z' then Char.ofNat (c.toNat - 32) else c

/-- JS `String.prototype.toUpperCase` on ASCII strings. -/
def asciiUpper (s : String) : String := ⟨s.data.map asciiUpperChar⟩

/-- ASCII lowercase of one character (JS `toLowerCase` on ASCII). -/
def asciiLowerChar (c : Char) : Char :=
  if 'A' ≤ c ∧ c ≤ 'Z' then Char.ofNat (c.toNat + 32) else c

/-- JS `String.prototype.toLowerCase` on ASCII strings. -/
def asciiLower (s : String) : String := ⟨s.data.map asciiLowerChar⟩

/-! ## Data model (`types.ts` via spec §3 and usage) -/

/-- One held asset on one chain (`PortfolioItem` in `types.ts`). -/
structure PortfolioItem where
  address : String
  name : String
  symbol : String
  decimals : Int
  logoURI : String
  price : Rat
  amount : Rat
  chain : String
  priceChange24h : Rat
deriving Repr, DecidableEq

/-- `AggregatedPortfolioItem` from `portfolioHelpers.ts` (a
`PortfolioItem` without `chain`, plus `chains`, `originalItems`,
`isAggregated`). -/
structure AggregatedPortfolioItem where
  address : String
  name : String
  symbol : String
  decimals : Int
  logoURI : String
  price : Rat
  amount : Rat
  priceChange24h : Rat
  chains : List String
  originalItems : List PortfolioItem
  isAggregated : Bool
deriving Repr, DecidableEq

/-! ## Aggregation engine (`portfolioHelpers.ts`) -/

/-- `SYMBOL_AGGREGATION_MAP` from `portfolioHelpers.ts`. -/
def SYMBOL_AGGREGATION_MAP : List (String × String) :=
  [("WETH", "ETH"), ("ETH", "ETH"), ("USDC", "USDC")]

/-- `SYMBOL_AGGREGATION_MAP[symbol.toUpperCase()]`, `none` when absent
(JS `undefined`, which is falsy; the mapped values are non-empty strings,
hence truthy). -/
def aliasLookup (symbol : String) : Option String :=
  (SYMBOL_AGGREGATION_MAP.find? (fun p => p.1 = asciiUpper symbol)).map (·.2)

/-- `reduce((sum, i) => sum + i.amount, 0)` over original items. -/
def totalAmountOf (l : List PortfolioItem) : Rat :=
  l.foldl (fun sum i => sum + i.amount) 0

/-- `reduce((sum, i) => sum + i.price * i.amount, 0)` over original items. -/
def totalValueOf (l : List PortfolioItem) : Rat :=
  l.foldl (fun sum i => sum + i.price * i.amount) 0

/-- `reduce((sum, i) => sum + i.priceChange24h * i.amount, 0)`. -/
def totalWeightedChangeOf (l : List PortfolioItem) : Rat :=
  l.foldl (fun sum i => sum + i.priceChange24h * i.amount) 0

/-- The merge branch of `aggregatePortfolioItems` (lines 31-64): add the
amount, extend `chains`/`originalItems`, recompute the weighted averages
from the updated `originalItems`. -/
def mergeInto (existing : AggregatedPortfolioItem) (item : PortfolioItem) :
    AggregatedPortfolioItem :=
  let originalItems := existing.originalItems ++ [item]
  let totalValue := totalValueOf originalItems
  let totalAmount := totalAmountOf originalItems
  { existing with
    amount := existing.amount + item.amount
    chains :=
      if existing.chains.contains item.chain then existing.chains
      else existing.chains ++ [item.chain]
    originalItems := originalItems
    price := if 0 < totalAmount then totalValue / totalAmount else 0
    priceChange24h :=
      if 0 < totalAmount then totalWeightedChangeOf originalItems / totalAmount
      else 0 }

/-- The seed branch of `aggregatePortfolioItems` (lines 65-80): spread the
item, override symbol/name/logo, mark as aggregated. -/
def seedAggregated (canonicalSymbol : String) (item : PortfolioItem) :
    AggregatedPortfolioItem :=
  { address := item.address
    name := if canonicalSymbol = "ETH" then "Ethereum" else canonicalSymbol
    symbol := canonicalSymbol
    decimals := item.decimals
    logoURI :=
      if canonicalSymbol = "ETH" then
        "https://raw.githubusercontent.com/trustwallet/assets/master/blockchains/ethereum/info/logo.png"
      else item.logoURI
    price := item.price
    amount := item.amount
    priceChange24h := item.priceChange24h
    chains := [item.chain]
    originalItems := [item]
    isAggregated := true }

/-- The non-aliased branch of `aggregatePortfolioItems` (lines 81-89):
wrap the item unchanged into the aggregated shape. -/
def wrapNonAliased (item : PortfolioItem) : AggregatedPortfolioItem :=
  { address := item.address
    name := item.name
    symbol := item.symbol
    decimals := item.decimals
    logoURI := item.logoURI
    price := item.price
    amount := item.amount
    priceChange24h := item.priceChange24h
    chains := [item.chain]
    originalItems := [item]
    isAggregated := false }

/-- Key used by the non-aliased branch: `` `${item.symbol}-${item.chain}` ``. -/
def nonAliasedKeyOf (item : PortfolioItem) : String :=
  item.symbol ++ "-" ++ item.chain

/-- One iteration of the `items.forEach` body of `aggregatePortfolioItems`. -/
def aggregateStep (m : List (String × AggregatedPortfolioItem))
    (item : PortfolioItem) : List (String × AggregatedPortfolioItem) :=
  match aliasLookup item.symbol with
  | some canonicalSymbol =>
      match mapGet m canonicalSymbol with
      | some existing => mapSet m canonicalSymbol (mergeInto existing item)
      | none => mapSet m canonicalSymbol (seedAggregated canonicalSymbol item)
  | none => mapSet m (nonAliasedKeyOf item) (wrapNonAliased item)

/-- The `aggregationMap` after the `forEach` loop. -/
def buildAggregationMap (items : List PortfolioItem) :
    List (String × AggregatedPortfolioItem) :=
  items.foldl aggregateStep []

/-- `aggregatePortfolioItems` (`portfolioHelpers.ts` lines 17-93):
`Array.from(aggregationMap.values())`. -/
def aggregatePortfolioItems (items : List PortfolioItem) :
    List AggregatedPortfolioItem :=
  (buildAggregationMap items).map (·.2)

/-- `matchesKey k i` holds when `i` takes the non-aliased branch and its
`` `${symbol}-${chain}` `` key is `k`. -/
def matchesKey (k : String) (i : PortfolioItem) : Bool :=
  (aliasLookup i.symbol).isNone && decide (nonAliasedKeyOf i = k)

theorem data_append (s t : String) : (s ++ t).data = s.data ++ t.data := by
  cases s; cases t; rfl

theorem append_dash_ne (s c t : String) (ht : '-' ∉ t.data) :
    s ++ "-" ++ c ≠ t := by
  intro h
  apply ht
  rw [← h, data_append, data_append]
  have : '-' ∈ ("-" : String).data := by decide
  exact List.mem_append_left _ (List.mem_append_right _ this)

theorem aliasLookup_range (s c : String) (h : aliasLookup s = some c) :
    c = "ETH" ∨ c = "USDC" := by
  unfold aliasLookup at h
  cases hfind : List.find? (fun p => p.1 = asciiUpper s) SYMBOL_AGGREGATION_MAP with
  | none => rw [hfind] at h; exact Option.noConfusion h
  | some p =>
      rw [hfind] at h
      have hmem := List.mem_of_find?_eq_some hfind
      unfold SYMBOL_AGGREGATION_MAP at hmem
      simp only [List.mem_cons, List.not_mem_nil, or_false] at hmem
      injection h with h
      rcases hmem with h' | h' | h' <;> rw [← h, h'] <;> simp

/-- Master invariant for the aggregation fold: a property of
(key, value) pairs that is established by the seed and non-aliased
branches and preserved by the merge branch holds of every entry of the
final `aggregationMap`. -/
theorem aggregate_pairs_invariant (Q : String → AggregatedPortfolioItem → Prop)
    (hmerge : ∀ (item : PortfolioItem) (c : String) existing,
      aliasLookup item.symbol = some c → Q c existing →
      Q c (mergeInto existing item))
    (hseed : ∀ item c, aliasLookup item.symbol = some c →
      Q c (seedAggregated c item))
    (hwrap : ∀ item, aliasLookup item.symbol = none →
      Q (nonAliasedKeyOf item) (wrapNonAliased item)) :
    ∀ (items : List PortfolioItem) (m : List (String × AggregatedPortfolioItem)),
      (∀ kv ∈ m, Q kv.1 kv.2) →
      ∀ kv ∈ items.foldl aggregateStep m, Q kv.1 kv.2 := by
  intro items
  induction items with
  | nil => intro m hm kv hkv; exact hm kv hkv
  | cons item rest ih =>
      intro m hm kv hkv
      rw [List.foldl_cons] at hkv
      refine ih (aggregateStep m item) ?_ kv hkv
      intro kv' hkv'
      cases halias : aliasLookup item.symbol with
      | some c =>
          cases hget : mapGet m c with
          | some existing =>
              have hstep : aggregateStep m item =
                  mapSet m c (mergeInto existing item) := by
                simp only [aggregateStep, halias, hget]
              rw [hstep] at hkv'
              rcases mem_mapSet _ _ _ _ hkv' with h | h
              · rw [h]
                exact hmerge item c existing halias
                  (hm (c, existing) (mapGet_mem _ _ _ hget))
              · exact hm _ h
          | none =>
              have hstep : aggregateStep m item =
                  mapSet m c (seedAggregated c item) := by
                simp only [aggregateStep, halias, hget]
              rw [hstep] at hkv'
              rcases mem_mapSet _ _ _ _ hkv' with h | h
              · rw [h]; exact hseed item c halias
              · exact hm _ h
      | none =>
          have hstep : aggregateStep m item =
              mapSet m (nonAliasedKeyOf item) (wrapNonAliased item) := by
            simp only [aggregateStep, halias]
          rw [hstep] at hkv'
          rcases mem_mapSet _ _ _ _ hkv' with h | h
          · rw [h]; exact hwrap item halias
          · exact hm _ h

/-- Value-only corollary of `aggregate_pairs_invariant`. -/
theorem aggregate_values_invariant (P : AggregatedPortfolioItem → Prop)
    (hmerge : ∀ (item : PortfolioItem) existing,
      (aliasLookup item.symbol).isSome → P existing → P (mergeInto existing item))
    (hseed : ∀ item c, aliasLookup item.symbol = some c →
      P (seedAggregated c item))
    (hwrap : ∀ item, aliasLookup item.symbol = none →
      P (wrapNonAliased item)) :
    ∀ (items : List PortfolioItem), ∀ a ∈ aggregatePortfolioItems items, P a := by
  intro items a ha
  unfold aggregatePortfolioItems buildAggregationMap at ha
  obtain ⟨kv, hkv, rfl⟩ := List.mem_map.mp ha
  exact aggregate_pairs_invariant (fun _ v => P v)
    (fun item c existing h hp => hmerge item existing (by simp [h]) hp)
    hseed hwrap items [] (by simp) kv hkv

@[simp] theorem mergeInto_originalItems (e : AggregatedPortfolioItem)
    (i : PortfolioItem) :
    (mergeInto e i).originalItems = e.originalItems ++ [i] := rfl

@[simp] theorem mergeInto_amount (e : AggregatedPortfolioItem)
    (i : PortfolioItem) : (mergeInto e i).amount = e.amount + i.amount := rfl

@[simp] theorem mergeInto_isAggregated (e : AggregatedPortfolioItem)
    (i : PortfolioItem) : (mergeInto e i).isAggregated = e.isAggregated := rfl

theorem mergeInto_price (e : AggregatedPortfolioItem) (i : PortfolioItem) :
    (mergeInto e i).price =
      if 0 < totalAmountOf (e.originalItems ++ [i]) then
        totalValueOf (e.originalItems ++ [i]) /
          totalAmountOf (e.originalItems ++ [i])
      else 0 := rfl

theorem mergeInto_priceChange24h (e : AggregatedPortfolioItem)
    (i : PortfolioItem) :
    (mergeInto e i).priceChange24h =
      if 0 < totalAmountOf (e.originalItems ++ [i]) then
        totalWeightedChangeOf (e.originalItems ++ [i]) /
          totalAmountOf (e.originalItems ++ [i])
      else 0 := rfl

theorem totalAmountOf_append (l : List PortfolioItem) (i : PortfolioItem) :
    totalAmountOf (l ++ [i]) = totalAmountOf l + i.amount := by
  simp [totalAmountOf, List.foldl_append]

/-- The weighted-average property of one aggregated group. -/
def WeightedInvariant (a : AggregatedPortfolioItem) : Prop :=
  a.originalItems ≠ [] ∧
  a.amount = totalAmountOf a.originalItems ∧
  (0 < totalAmountOf a.originalItems →
    a.price = totalValueOf a.originalItems / totalAmountOf a.originalItems ∧
    a.priceChange24h =
      totalWeightedChangeOf a.originalItems / totalAmountOf a.originalItems) ∧
  (¬ 0 < totalAmountOf a.originalItems → 2 ≤ a.originalItems.length →
    a.price = 0 ∧ a.priceChange24h = 0) ∧
  (∀ i, a.originalItems = [i] →
    a.price = i.price ∧ a.priceChange24h = i.priceChange24h)

theorem weightedInvariant_single (a : AggregatedPortfolioItem)
    (i : PortfolioItem) (horig : a.originalItems = [i])
    (ham : a.amount = i.amount) (hpr : a.price = i.price)
    (hpc : a.priceChange24h = i.priceChange24h) : WeightedInvariant a := by
  refine ⟨by simp [horig], ?_, ?_, ?_, ?_⟩
  · rw [ham, horig]; simp [totalAmountOf]
  · intro hp
    rw [horig] at hp
    simp only [totalAmountOf, List.foldl_cons, List.foldl_nil, zero_add] at hp
    constructor
    · rw [hpr, horig]
      simp only [totalValueOf, totalAmountOf, List.foldl_cons, List.foldl_nil,
        zero_add]
      rw [mul_div_cancel_right₀ _ (ne_of_gt hp)]
    · rw [hpc, horig]
      simp only [totalWeightedChangeOf, totalAmountOf, List.foldl_cons,
        List.foldl_nil, zero_add]
      rw [mul_div_cancel_right₀ _ (ne_of_gt hp)]
  · intro _ h2
    rw [horig] at h2
    simp at h2
  · intro j hj
    rw [horig] at hj
    have hij : i = j := by simpa using hj
    rw [← hij]
    exact ⟨hpr, hpc⟩

/-- C3 (amended): every aggregated item's `amount` is the arithmetic sum
of its `originalItems` amounts; whenever the group's total amount is
positive, `price` and `priceChange24h` are the amount-weighted averages;
when the total amount is not positive, a group of at least two items has
`price = 0` and `priceChange24h = 0`, while a single-item group retains
the item's own `price` and `priceChange24h` (they are not forced to 0). -/
theorem aggregate_weighted_invariant :
    ∀ (items : List PortfolioItem), ∀ a ∈ aggregatePortfolioItems items,
      WeightedInvariant a := by
  apply aggregate_values_invariant
  · intro item existing _ hP
    obtain ⟨hne, hamount, -, -, -⟩ := hP
    refine ⟨by simp, ?_, ?_, ?_, ?_⟩
    · simp only [mergeInto_amount, mergeInto_originalItems,
        totalAmountOf_append, hamount]
    · intro hp
      simp only [mergeInto_originalItems] at hp
      simp only [mergeInto_price, mergeInto_priceChange24h,
        mergeInto_originalItems, if_pos hp]
      exact ⟨trivial, trivial⟩
    · intro hnp _
      simp only [mergeInto_originalItems] at hnp
      simp only [mergeInto_price, mergeInto_priceChange24h,
        mergeInto_originalItems, if_neg hnp]
      exact ⟨trivial, trivial⟩
    · intro i hi
      simp only [mergeInto_originalItems] at hi
      exfalso
      cases horig : existing.originalItems with
      | nil => exact hne horig
      | cons x xs =>
          rw [horig] at hi
          have := congrArg List.length hi
          simp at this
  · intro item c _
    exact weightedInvariant_single _ item rfl rfl rfl rfl
  · intro item _
    exact weightedInvariant_single _ item rfl rfl rfl rfl

/-- The "WETH on ethereum" item of the spec's aggregation example. -/
def exWethItem : PortfolioItem :=
  { address := "0xweth", name := "Wrapped Ether", symbol := "WETH",
    decimals := 18, logoURI := "weth.png", price := 2000, amount := 1,
    chain := "ethereum", priceChange24h := 5 }

/-- The "ETH on arbitrum" item of the spec's aggregation example. -/
def exEthItem : PortfolioItem :=
  { address := "0xeth", name := "Ether", symbol := "ETH", decimals := 18,
    logoURI := "eth.png", price := 2000, amount := 1, chain := "arbitrum",
    priceChange24h := -5 }

/-- C2: on the spec's concrete two-item input, aggregation returns exactly
one item with canonical symbol "ETH", amount 2, price 2000,
priceChange24h 0, and chains exactly ["ethereum", "arbitrum"]. -/
theorem aggregate_spec_example :
    ((aggregatePortfolioItems [exWethItem, exEthItem]).map (·.symbol)
        = ["ETH"]) ∧
    ((aggregatePortfolioItems [exWethItem, exEthItem]).map (·.amount)
        = [2]) ∧
    ((aggregatePortfolioItems [exWethItem, exEthItem]).map (·.price)
        = [2000]) ∧
    ((aggregatePortfolioItems [exWethItem, exEthItem]).map (·.priceChange24h)
        = [0]) ∧
    ((aggregatePortfolioItems [exWethItem, exEthItem]).map (·.chains)
        = [["ethereum", "arbitrum"]]) := by
  have h1 : aliasLookup "WETH" = some "ETH" := by decide
  have h2 : aliasLookup "ETH" = some "ETH" := by decide
  simp only [aggregatePortfolioItems, buildAggregationMap, List.foldl,
    aggregateStep, exWethItem, exEthItem, h1, h2, mapGet, mapSet,
    seedAggregated, mergeInto, wrapNonAliased, nonAliasedKeyOf,
    totalAmountOf, totalValueOf, totalWeightedChangeOf, List.map,
    List.contains]
  norm_num
  decide

/-- A zero-amount WETH item: the seed branch keeps its price 2000 even
though the group's total amount is 0. -/
def cxZeroWeth : PortfolioItem :=
  { address := "0xweth", name := "Wrapped Ether", symbol := "WETH",
    decimals := 18, logoURI := "weth.png", price := 2000, amount := 0,
    chain := "ethereum", priceChange24h := 5 }

theorem aggregate_single_zeroWeth :
    aggregatePortfolioItems [cxZeroWeth] = [seedAggregated "ETH" cxZeroWeth] := by
  have h1 : aliasLookup cxZeroWeth.symbol = some "ETH" := by decide
  simp only [aggregatePortfolioItems, buildAggregationMap, List.foldl_cons,
    List.foldl_nil, aggregateStep, h1, mapGet, mapSet, List.map]

/-- C3 (counterexample): a single-item group whose total amount is 0 keeps
the item's price (2000) instead of the weighted-average value 0 demanded
by the claim for groups with zero total amount. -/
theorem aggregate_weighted_counterexample :
    ∃ a ∈ aggregatePortfolioItems [cxZeroWeth],
      totalAmountOf a.originalItems = 0 ∧ a.price ≠ 0 := by
  rw [aggregate_single_zeroWeth]
  refine ⟨seedAggregated "ETH" cxZeroWeth, by simp, ?_, ?_⟩
  · show totalAmountOf [cxZeroWeth] = 0
    simp [totalAmountOf, cxZeroWeth]
  · show cxZeroWeth.price ≠ 0
    simp only [cxZeroWeth]
    norm_num

theorem aggregate_single_weth :
    aggregatePortfolioItems [exWethItem] = [seedAggregated "ETH" exWethItem] := by
  have h1 : aliasLookup exWethItem.symbol = some "ETH" := by decide
  simp only [aggregatePortfolioItems, buildAggregationMap, List.foldl_cons,
    List.foldl_nil, aggregateStep, h1, mapGet, mapSet, List.map]

/-- C3 witness: the amended invariant applied to the concrete input
`[exWethItem]`. -/
theorem aggregate_weighted_invariant_witness :
    WeightedInvariant (seedAggregated "ETH" exWethItem) :=
  aggregate_weighted_invariant [exWethItem] (seedAggregated "ETH" exWethItem)
    (by rw [aggregate_single_weth]; simp)

/-- A lone USDC item: alias-mapped ("USDC" maps to itself) but never
merged and never rewritten. -/
def cxUsdcSolo : PortfolioItem :=
  { address := "0xusdc", name := "USD Coin", symbol := "USDC", decimals := 6,
    logoURI := "usdc.png", price := 1, amount := 3, chain := "solana",
    priceChange24h := 1 }

/-- C8 (counterexample): a single unmerged, unrewritten USDC item is
nevertheless marked `isAggregated = true` by the seed branch. -/
theorem aggregate_isAggregated_counterexample :
    (aggregatePortfolioItems [cxUsdcSolo]).map
        (fun a => (a.isAggregated, a.originalItems.length, a.symbol))
      = [(true, 1, "USDC")] := by
  have h1 : aliasLookup cxUsdcSolo.symbol = some "USDC" := by decide
  simp only [aggregatePortfolioItems, buildAggregationMap, List.foldl_cons,
    List.foldl_nil, aggregateStep, h1, mapGet, mapSet, List.map,
    seedAggregated, cxUsdcSolo]
  simp

/-- C8 (amended): an output item has `isAggregated = true` exactly when
every item of its group has a symbol in the alias table — in particular a
single unmerged, unrewritten alias-table item is marked aggregated, and a
non-aliased item never is. -/
theorem aggregate_isAggregated_iff_aliased :
    ∀ (items : List PortfolioItem), ∀ a ∈ aggregatePortfolioItems items,
      a.isAggregated = true ↔
        ∀ i ∈ a.originalItems, (aliasLookup i.symbol).isSome = true := by
  intro items a ha
  unfold aggregatePortfolioItems buildAggregationMap at ha
  obtain ⟨kv, hkv, rfl⟩ := List.mem_map.mp ha
  refine (aggregate_pairs_invariant
    (fun k v => (v.isAggregated = true ↔
        ∀ i ∈ v.originalItems, (aliasLookup i.symbol).isSome = true) ∧
      (v.isAggregated = false → k ≠ "ETH" ∧ k ≠ "USDC"))
    ?_ ?_ ?_ items [] (by simp) kv hkv).1
  · intro item c existing halias hQ
    obtain ⟨hiff, hkey⟩ := hQ
    have hexist : existing.isAggregated = true := by
      cases hb : existing.isAggregated with
      | true => rfl
      | false =>
          rcases aliasLookup_range _ _ halias with hc | hc <;>
            [exact absurd hc (hkey hb).1; exact absurd hc (hkey hb).2]
    constructor
    · simp only [mergeInto_isAggregated, mergeInto_originalItems, hexist,
        true_iff]
      intro i hi
      rcases List.mem_append.mp hi with hmem | hmem
      · exact (hiff.mp hexist) i hmem
      · have : i = item := by simpa using hmem
        rw [this, halias]; rfl
    · intro hfalse
      rw [mergeInto_isAggregated, hexist] at hfalse
      exact absurd hfalse (by simp)
  · intro item c halias
    constructor
    · constructor
      · intro _ i hi
        have : i = item := by simpa [seedAggregated] using hi
        rw [this, halias]; rfl
      · intro _; rfl
    · intro hfalse
      exact absurd hfalse (by simp [seedAggregated])
  · intro item halias
    constructor
    · constructor
      · intro hfalse
        exact absurd hfalse (by simp [wrapNonAliased])
      · intro hall
        have := hall item (by simp [wrapNonAliased])
        rw [halias] at this
        exact absurd this (by simp)
    · intro _
      have hdash : '-' ∉ ("ETH" : String).data ∧ '-' ∉ ("USDC" : String).data := by
        decide
      exact ⟨append_dash_ne _ _ _ hdash.1, append_dash_ne _ _ _ hdash.2⟩

/-- C8 witness: the amended claim applied to the single-USDC input. -/
theorem aggregate_isAggregated_iff_aliased_witness :
    (seedAggregated "USDC" cxUsdcSolo).isAggregated = true ↔
      ∀ i ∈ (seedAggregated "USDC" cxUsdcSolo).originalItems,
        (aliasLookup i.symbol).isSome = true := by
  have hagg : aggregatePortfolioItems [cxUsdcSolo]
      = [seedAggregated "USDC" cxUsdcSolo] := by
    have h1 : aliasLookup cxUsdcSolo.symbol = some "USDC" := by decide
    simp only [aggregatePortfolioItems, buildAggregationMap, List.foldl_cons,
      List.foldl_nil, aggregateStep, h1, mapGet, mapSet, List.map]
  exact aggregate_isAggregated_iff_aliased [cxUsdcSolo]
    (seedAggregated "USDC" cxUsdcSolo) (by rw [hagg]; simp)

theorem mapSet_cons_pos {α : Type} (rest : List (String × α)) (k₀ : String)
    (v₀ v : α) : mapSet ((k₀, v₀) :: rest) k₀ v = (k₀, v) :: rest := by
  simp [mapSet]

theorem mapSet_cons_neg {α : Type} (rest : List (String × α)) (k₀ k : String)
    (v₀ v : α) (h : k₀ ≠ k) :
    mapSet ((k₀, v₀) :: rest) k v = (k₀, v₀) :: mapSet rest k v := by
  simp [mapSet, h]

theorem keys_mapSet_subset {α : Type} (m : List (String × α)) (k : String)
    (v : α) (x : String) (h : x ∈ (mapSet m k v).map (·.1)) :
    x ∈ m.map (·.1) ∨ x = k := by
  induction m with
  | nil => simpa [mapSet] using h
  | cons kv₀ rest ih =>
      obtain ⟨k₀, v₀⟩ := kv₀
      by_cases h₀ : k₀ = k
      · subst h₀
        rw [mapSet_cons_pos] at h
        simp only [List.map_cons, List.mem_cons] at h ⊢
        tauto
      · rw [mapSet_cons_neg _ _ _ _ _ h₀] at h
        simp only [List.map_cons, List.mem_cons] at h ⊢
        rcases h with h | h
        · tauto
        · rcases ih h with h' | h' <;> tauto

theorem keys_nodup_mapSet {α : Type} (m : List (String × α)) (k : String)
    (v : α) (h : (m.map (·.1)).Nodup) : ((mapSet m k v).map (·.1)).Nodup := by
  induction m with
  | nil => simp [mapSet]
  | cons kv₀ rest ih =>
      obtain ⟨k₀, v₀⟩ := kv₀
      simp only [List.map_cons, List.nodup_cons] at h
      by_cases h₀ : k₀ = k
      · subst h₀
        rw [mapSet_cons_pos]
        simp only [List.map_cons, List.nodup_cons]
        exact h
      · rw [mapSet_cons_neg _ _ _ _ _ h₀]
        simp only [List.map_cons, List.nodup_cons]
        refine ⟨?_, ih h.2⟩
        intro hmem
        rcases keys_mapSet_subset rest k v k₀ hmem with h' | h'
        · exact h.1 h'
        · exact h₀ h'

theorem filter_eq_of_mapGet {α : Type} [DecidableEq α]
    (m : List (String × α)) (k : String) (v : α)
    (hnd : (m.map (·.1)).Nodup) (h : mapGet m k = some v) :
    m.filter (fun kv => kv.1 = k) = [(k, v)] := by
  induction m with
  | nil => simp [mapGet] at h
  | cons kv₀ rest ih =>
      obtain ⟨k₀, v₀⟩ := kv₀
      simp only [List.map_cons, List.nodup_cons] at hnd
      by_cases h₀ : k₀ = k
      · subst h₀
        have hv : v₀ = v := by simpa [mapGet] using h
        subst hv
        rw [List.filter_cons_of_pos (by simp)]
        have hrest : rest.filter (fun kv => kv.1 = k₀) = [] := by
          rw [List.filter_eq_nil_iff]
          intro kv hkv
          simp only [decide_eq_true_eq]
          intro hk
          exact hnd.1 (by
            rw [← hk]
            exact List.mem_map.mpr ⟨kv, hkv, rfl⟩)
        rw [hrest]
      · have h' : mapGet rest k = some v := by simpa [mapGet, h₀] using h
        rw [List.filter_cons_of_neg (by simp [h₀])]
        exact ih hnd.2 h'

theorem buildMap_keys_nodup_aux (items : List PortfolioItem) :
    ∀ (m : List (String × AggregatedPortfolioItem)),
      (m.map (·.1)).Nodup → ((items.foldl aggregateStep m).map (·.1)).Nodup := by
  induction items with
  | nil => intro m hm; exact hm
  | cons item rest ih =>
      intro m hm
      rw [List.foldl_cons]
      refine ih (aggregateStep m item) ?_
      cases halias : aliasLookup item.symbol with
      | some c =>
          cases hget : mapGet m c with
          | some existing =>
              have hstep : aggregateStep m item =
                  mapSet m c (mergeInto existing item) := by
                simp only [aggregateStep, halias, hget]
              rw [hstep]
              exact keys_nodup_mapSet m c _ hm
          | none =>
              have hstep : aggregateStep m item =
                  mapSet m c (seedAggregated c item) := by
                simp only [aggregateStep, halias, hget]
              rw [hstep]
              exact keys_nodup_mapSet m c _ hm
      | none =>
          have hstep : aggregateStep m item =
              mapSet m (nonAliasedKeyOf item) (wrapNonAliased item) := by
            simp only [aggregateStep, halias]
          rw [hstep]
          exact keys_nodup_mapSet m _ _ hm

theorem buildMap_keys_nodup (items : List PortfolioItem) :
    ((buildAggregationMap items).map (·.1)).Nodup :=
  buildMap_keys_nodup_aux items [] (by simp)

theorem mapGet_foldl_nonAliased (k : String) (hk1 : k ≠ "ETH")
    (hk2 : k ≠ "USDC") :
    ∀ (items : List PortfolioItem) (m : List (String × AggregatedPortfolioItem)),
      mapGet (items.foldl aggregateStep m) k =
        match (items.filter (matchesKey k)).getLast? with
        | some j => some (wrapNonAliased j)
        | none => mapGet m k := by
  intro items
  induction items with
  | nil => intro m; simp
  | cons item rest ih =>
      intro m
      rw [List.foldl_cons]
      rw [ih (aggregateStep m item)]
      by_cases hmatch : matchesKey k item = true
      · obtain ⟨hnone, hkey⟩ : aliasLookup item.symbol = none ∧
            nonAliasedKeyOf item = k := by
          simpa [matchesKey, Option.isNone_iff_eq_none] using hmatch
        have hstep : aggregateStep m item = mapSet m k (wrapNonAliased item) := by
          simp only [aggregateStep, hnone, hkey]
        rw [List.filter_cons_of_pos hmatch]
        cases hlast : (rest.filter (matchesKey k)).getLast? with
        | none =>
            have : rest.filter (matchesKey k) = [] :=
              List.getLast?_eq_none_iff.mp hlast
            rw [this]
            simp only [List.getLast?_singleton]
            rw [hstep, mapGet_mapSet_self]
        | some j =>
            cases hfil : rest.filter (matchesKey k) with
            | nil => rw [hfil] at hlast; simp at hlast
            | cons b t =>
                rw [hfil] at hlast
                rw [List.getLast?_cons_cons, hlast]
      · rw [List.filter_cons_of_neg hmatch]
        have hstep : mapGet (aggregateStep m item) k = mapGet m k := by
          cases halias : aliasLookup item.symbol with
          | some c =>
              have hck : c ≠ k := by
                intro hckeq
                rcases aliasLookup_range _ _ halias with hc | hc
                · exact hk1 (hckeq.symm.trans hc)
                · exact hk2 (hckeq.symm.trans hc)
              cases hget : mapGet m c with
              | some existing =>
                  have heq : aggregateStep m item =
                      mapSet m c (mergeInto existing item) := by
                    simp only [aggregateStep, halias, hget]
                  rw [heq]
                  exact mapGet_mapSet_ne m k c _ hck
              | none =>
                  have heq : aggregateStep m item =
                      mapSet m c (seedAggregated c item) := by
                    simp only [aggregateStep, halias, hget]
                  rw [heq]
                  exact mapGet_mapSet_ne m k c _ hck
          | none =>
              have hkk : nonAliasedKeyOf item ≠ k := by
                intro hkk
                exact hmatch (by simp [matchesKey, halias, hkk])
              have heq : aggregateStep m item =
                  mapSet m (nonAliasedKeyOf item) (wrapNonAliased item) := by
                simp only [aggregateStep, halias]
              rw [heq]
              exact mapGet_mapSet_ne m k _ _ hkk
        rw [hstep]

/-- C9: when the input holds two or more non-aliased items sharing one
symbol and chain, the final aggregation map has exactly one entry under
the `` `${symbol}-${chain}` `` key, and that entry wraps only the *last*
such item (earlier ones are silently replaced by `Map.set`). -/
theorem aggregate_lastWins (items : List PortfolioItem) (s c : String)
    (h2 : 2 ≤ (items.filter (matchesKey (s ++ "-" ++ c))).length) :
    ∃ j, (items.filter (matchesKey (s ++ "-" ++ c))).getLast? = some j ∧
      mapGet (buildAggregationMap items) (s ++ "-" ++ c)
        = some (wrapNonAliased j) ∧
      (buildAggregationMap items).filter (fun kv => kv.1 = s ++ "-" ++ c)
        = [(s ++ "-" ++ c, wrapNonAliased j)] ∧
      wrapNonAliased j ∈ aggregatePortfolioItems items ∧
      (wrapNonAliased j).originalItems = [j] ∧
      (wrapNonAliased j).amount = j.amount := by
  have hk1 := append_dash_ne s c "ETH" (by decide)
  have hk2 := append_dash_ne s c "USDC" (by decide)
  have hne : items.filter (matchesKey (s ++ "-" ++ c)) ≠ [] := by
    intro h; rw [h] at h2; simp at h2
  obtain ⟨j, hj⟩ : ∃ j,
      (items.filter (matchesKey (s ++ "-" ++ c))).getLast? = some j := by
    cases hl : (items.filter (matchesKey (s ++ "-" ++ c))).getLast? with
    | none => exact absurd (List.getLast?_eq_none_iff.mp hl) hne
    | some j => exact ⟨j, rfl⟩
  have hget : mapGet (buildAggregationMap items) (s ++ "-" ++ c)
      = some (wrapNonAliased j) := by
    unfold buildAggregationMap
    rw [mapGet_foldl_nonAliased _ hk1 hk2 items [], hj]
  refine ⟨j, hj, hget,
    filter_eq_of_mapGet _ _ _ (buildMap_keys_nodup items) hget, ?_, rfl, rfl⟩
  unfold aggregatePortfolioItems
  exact List.mem_map.mpr ⟨(s ++ "-" ++ c, wrapNonAliased j),
    mapGet_mem _ _ _ hget, rfl⟩

/-- First of two non-aliased items sharing symbol "FOO" and chain "bar". -/
def cxFooA : PortfolioItem :=
  { address := "0xfooA", name := "Foo A", symbol := "FOO", decimals := 18,
    logoURI := "fooA.png", price := 3, amount := 7, chain := "bar",
    priceChange24h := 1 }

/-- Second of two non-aliased items sharing symbol "FOO" and chain "bar". -/
def cxFooB : PortfolioItem :=
  { address := "0xfooB", name := "Foo B", symbol := "FOO", decimals := 18,
    logoURI := "fooB.png", price := 4, amount := 9, chain := "bar",
    priceChange24h := 2 }

/-- C9 witness: the last-wins theorem applied to the two concrete "FOO"
items. -/
theorem aggregate_lastWins_witness :
    2 ≤ ([cxFooA, cxFooB].filter (matchesKey ("FOO" ++ "-" ++ "bar"))).length ∧
    ∃ j, ([cxFooA, cxFooB].filter (matchesKey ("FOO" ++ "-" ++ "bar"))).getLast?
        = some j ∧
      mapGet (buildAggregationMap [cxFooA, cxFooB]) ("FOO" ++ "-" ++ "bar")
        = some (wrapNonAliased j) ∧
      (buildAggregationMap [cxFooA, cxFooB]).filter
          (fun kv => kv.1 = "FOO" ++ "-" ++ "bar")
        = [("FOO" ++ "-" ++ "bar", wrapNonAliased j)] ∧
      wrapNonAliased j ∈ aggregatePortfolioItems [cxFooA, cxFooB] ∧
      (wrapNonAliased j).originalItems = [j] ∧
      (wrapNonAliased j).amount = j.amount :=
  ⟨by decide, aggregate_lastWins [cxFooA, cxFooB] "FOO" "bar" (by decide)⟩

/-! ## RateLimiter (`evmPortfolio.ts`, appended `rateLimiter` module)

`execute` runs a `while (retries <= maxRetries)` loop.  Each iteration
reads the clock, prunes `this.requests`, and either admits (push the
timestamp, invoke the operation) or sleeps until the oldest timestamp
exits the window.  `runAdmissions` is the projection of any interleaving
of `execute` calls onto the shared `requests` list: each element of the
attempt list is the `Date.now()` of one loop iteration (prune, check and
push happen atomically — there is no `await` between them), and the
result is the list of admitted timestamps.  `executeModel` is one
`execute` call in full, with the iteration clocks and the scripted
operation outcomes as oracles. -/

structure RateLimiterOptions where
  maxRequests : Nat
  windowMs : Int
  retryAfterMs : Int
  maxRetries : Nat
deriving Repr, DecidableEq

/-- `cleanupOldRequests`: keep timestamps with `now - timestamp < windowMs`. -/
def cleanupOldRequests (opts : RateLimiterOptions) (now : Int)
    (requests : List Int) : List Int :=
  requests.filter (fun t => now - t < opts.windowMs)

/-- Admission discipline of `execute` over a sequence of loop-iteration
instants, starting from a given shared `requests` list; returns the
admitted timestamps. -/
def runAdmissions (opts : RateLimiterOptions) :
    List Int → List Int → List Int
  | _, [] => []
  | requests, now :: rest =>
      let cleaned := cleanupOldRequests opts now requests
      if cleaned.length < opts.maxRequests then
        now :: runAdmissions opts (cleaned ++ [now]) rest
      else runAdmissions opts cleaned rest

/-- Specification-level twin of `runAdmissions` that keeps the entire
admission history instead of the pruned list. -/
def slidingAdmit (opts : RateLimiterOptions) :
    List Int → List Int → List Int
  | _, [] => []
  | hist, now :: rest =>
      if (hist.filter (fun t => now - t < opts.windowMs)).length
          < opts.maxRequests then
        now :: slidingAdmit opts (hist ++ [now]) rest
      else slidingAdmit opts hist rest

/-- `Math.min(...requests)` (only used on non-empty lists). -/
def listMin : List Int → Int
  | [] => 0
  | [t] => t
  | t :: rest => min t (listMin rest)

/-- The sleep computed in the full-window branch:
`windowMs - (Date.now() - oldestRequest) + 100`. -/
def fullWindowWait (opts : RateLimiterOptions) (now : Int)
    (requests : List Int) : Int :=
  opts.windowMs - (now - listMin requests) + 100

/-- `t` lies in the half-open window `(x, x + windowMs]`, the window
shape induced by the strict `now - timestamp < windowMs` retention test. -/
def inWindow (opts : RateLimiterOptions) (x t : Int) : Bool :=
  decide (x < t) && decide (t ≤ x + opts.windowMs)

theorem cleanup_cleanup (opts : RateLimiterOptions) (t0 now : Int)
    (h : t0 ≤ now) (l : List Int) :
    cleanupOldRequests opts now (cleanupOldRequests opts t0 l)
      = cleanupOldRequests opts now l := by
  unfold cleanupOldRequests
  induction l with
  | nil => rfl
  | cons t rest ih =>
      by_cases h1 : t0 - t < opts.windowMs
      · by_cases h2 : now - t < opts.windowMs <;> simp [h1, h2, ih]
      · have h2 : ¬ (now - t < opts.windowMs) := by omega
        simp [h1, h2, ih]

theorem runAdmissions_eq_slidingAdmit (opts : RateLimiterOptions)
    (hw : 0 < opts.windowMs) :
    ∀ (attempts hist : List Int) (t0 : Int),
      attempts.Pairwise (· ≤ ·) → (∀ a ∈ attempts, t0 ≤ a) →
      runAdmissions opts (cleanupOldRequests opts t0 hist) attempts
        = slidingAdmit opts hist attempts := by
  intro attempts
  induction attempts with
  | nil => intro hist t0 _ _; rfl
  | cons now rest ih =>
      intro hist t0 hpw hlb
      have hnow : t0 ≤ now := hlb now (List.mem_cons_self _ _)
      obtain ⟨hhead, hpw'⟩ := List.pairwise_cons.mp hpw
      simp only [runAdmissions, slidingAdmit]
      rw [cleanup_cleanup opts t0 now hnow hist]
      by_cases hadm :
          (cleanupOldRequests opts now hist).length < opts.maxRequests
      · have hadmF : (List.filter (fun t => decide (now - t < opts.windowMs))
            hist).length < opts.maxRequests := hadm
        rw [if_pos hadm, if_pos hadmF]
        have hsingle : cleanupOldRequests opts now hist ++ [now]
            = cleanupOldRequests opts now (hist ++ [now]) := by
          unfold cleanupOldRequests
          rw [List.filter_append]
          congr 1
          have h0 : now - now < opts.windowMs := by omega
          simp [List.filter_singleton, h0, hw]
        rw [hsingle, ih (hist ++ [now]) now hpw' hhead]
      · have hadmF : ¬ (List.filter (fun t => decide (now - t < opts.windowMs))
            hist).length < opts.maxRequests := hadm
        rw [if_neg hadm, if_neg hadmF]
        exact ih hist now hpw' hhead

theorem slidingAdmit_window_bound (opts : RateLimiterOptions) (x : Int) :
    ∀ (attempts hist : List Int),
      hist.countP (inWindow opts x) ≤ opts.maxRequests →
      hist.countP (inWindow opts x)
          + (slidingAdmit opts hist attempts).countP (inWindow opts x)
        ≤ opts.maxRequests := by
  intro attempts
  induction attempts with
  | nil => intro hist hh; simpa [slidingAdmit] using hh
  | cons now rest ih =>
      intro hist hh
      simp only [slidingAdmit]
      by_cases hadm :
          (hist.filter (fun t => now - t < opts.windowMs)).length
            < opts.maxRequests
      · rw [if_pos hadm]
        rw [List.countP_cons]
        by_cases hin : inWindow opts x now = true
        · have hkey : hist.countP (inWindow opts x)
              ≤ (hist.filter (fun t => now - t < opts.windowMs)).length := by
            rw [← List.countP_eq_length_filter]
            apply List.countP_mono_left
            intro t _ htin
            simp only [inWindow, Bool.and_eq_true, decide_eq_true_eq]
              at htin hin
            simp only [decide_eq_true_eq]
            omega
          have hstep := ih (hist ++ [now]) (by
            rw [List.countP_append]
            simp [hin]
            omega)
          rw [List.countP_append] at hstep
          simp only [List.countP_cons, List.countP_nil, hin, if_pos] at hstep
          simp only [hin, if_pos]
          omega
        · have hstep := ih (hist ++ [now]) (by
            rw [List.countP_append]
            simp [List.countP_cons, hin]
            omega)
          rw [List.countP_append] at hstep
          simp only [List.countP_cons, List.countP_nil] at hstep
          simp only [hin] at hstep ⊢
          simp at hstep ⊢
          omega
      · rw [if_neg hadm]
        exact ih hist hh

/-- Result of one scripted invocation of the wrapped operation. -/
inductive OpOutcome where
  | ok : OpOutcome
  | err429 : OpOutcome
  | errOther : OpOutcome
deriving Repr, DecidableEq

/-- Observable result of `RateLimiter.execute`.  `opFailure429` /
`opFailureOther` rethrow the operation's own error object;
`exhaustedRetriesError` is the explicit
`` `Failed after ${maxRetries} retries` `` error of the final `throw`. -/
inductive ExecResult where
  | success : ExecResult
  | opFailure429 : ExecResult
  | opFailureOther : ExecResult
  | exhaustedRetriesError : ExecResult
  | outOfFuel : ExecResult
deriving Repr, DecidableEq

/-- One `execute` call (`evmPortfolio.ts` lines 403-441).  `times` is the
clock value of each `while` iteration, `outcomes` scripts the successive
results of `fn()`; sleeping only advances the clock, which the `times`
oracle models.  `outOfFuel` means the run is longer than the supplied
oracle, which no theorem below treats as an observable failure. -/
def executeModel (opts : RateLimiterOptions) :
    List Int → List OpOutcome → List Int → Nat → ExecResult
  | [], _, _, _ => .outOfFuel
  | now :: restTimes, outcomes, requests, retries =>
      if retries ≤ opts.maxRetries then
        let cleaned := cleanupOldRequests opts now requests
        if cleaned.length < opts.maxRequests then
          match outcomes with
          | [] => .outOfFuel
          | .ok :: _ => .success
          | .errOther :: _ => .opFailureOther
          | .err429 :: restOutcomes =>
              if opts.maxRetries < retries + 1 then .opFailure429
              else
                executeModel opts restTimes restOutcomes (cleaned ++ [now])
                  (retries + 1)
        else
          executeModel opts restTimes outcomes cleaned retries
      else .exhaustedRetriesError

/-- C1: (i) over every nondecreasing sequence of loop-iteration instants,
the timestamps admitted by the shared sliding-window check number at most
`maxRequests` in every window `(x, x + windowMs]`; (ii) a full-window
iteration only prunes the list and retries — it consumes neither a retry
nor an operation outcome; (iii) after sleeping the computed
`fullWindowWait`, the oldest timestamp has left the window. -/
theorem rateLimiter_sliding_window :
    (∀ (opts : RateLimiterOptions), 0 < opts.windowMs →
      ∀ (times : List Int), times.Pairwise (· ≤ ·) →
      ∀ (x : Int),
        (runAdmissions opts [] times).countP (inWindow opts x)
          ≤ opts.maxRequests) ∧
    (∀ (opts : RateLimiterOptions) (now : Int) (restTimes : List Int)
        (outcomes : List OpOutcome) (requests : List Int) (retries : Nat),
      retries ≤ opts.maxRetries →
      ¬ (cleanupOldRequests opts now requests).length < opts.maxRequests →
      executeModel opts (now :: restTimes) outcomes requests retries
        = executeModel opts restTimes outcomes
            (cleanupOldRequests opts now requests) retries) ∧
    (∀ (opts : RateLimiterOptions) (now : Int) (requests : List Int),
      requests ≠ [] →
      ¬ (now + fullWindowWait opts now requests - listMin requests
          < opts.windowMs)) := by
  refine ⟨?_, ?_, ?_⟩
  · intro opts hw times hpw x
    cases times with
    | nil => simp [runAdmissions]
    | cons now rest =>
        have h0 : (runAdmissions opts
            (cleanupOldRequests opts now []) (now :: rest))
            = slidingAdmit opts [] (now :: rest) := by
          apply runAdmissions_eq_slidingAdmit opts hw (now :: rest) [] now hpw
          intro a ha
          rcases List.mem_cons.mp ha with h | h
          · omega
          · exact (List.pairwise_cons.mp hpw).1 a h
        have h1 : cleanupOldRequests opts now [] = ([] : List Int) := rfl
        rw [h1] at h0
        rw [h0]
        have := slidingAdmit_window_bound opts x (now :: rest) []
          (by simp)
        simpa using this
  · intro opts now restTimes outcomes requests retries hr hfull
    simp only [executeModel, if_pos hr, if_neg hfull]
  · intro opts now requests _
    unfold fullWindowWait
    omega

/-- C1 witness: the window bound applied to a concrete run. -/
theorem rateLimiter_sliding_window_witness :
    (runAdmissions ⟨2, 1000, 1000, 3⟩ [] [0, 5, 10]).countP
        (inWindow ⟨2, 1000, 1000, 3⟩ 0) ≤ 2 :=
  rateLimiter_sliding_window.1 ⟨2, 1000, 1000, 3⟩ (by decide)
    [0, 5, 10] (by decide) 0

/-- The options of the `jupiterRateLimiter` singleton instance. -/
def jupiterRateLimiterOptions : RateLimiterOptions :=
  { maxRequests := 10, windowMs := 1000, retryAfterMs := 2000, maxRetries := 3 }

/-- C5 (counterexample): with the retry budget consumed by four
consecutive 429 failures, `execute` rethrows the operation's own 429
error — not the explicit "Failed after N retries" error the claim
requires. -/
theorem rateLimiter_retryError_counterexample :
    executeModel jupiterRateLimiterOptions [0, 1, 2, 3, 4]
        (List.replicate 4 .err429) [] 0 = .opFailure429 ∧
    ExecResult.opFailure429 ≠ ExecResult.exhaustedRetriesError := by
  constructor
  · decide
  · decide

/-- C5 (amended): when the retry budget is consumed without success,
`execute` fails with the operation's own rate-limit error; the explicit
`` `Failed after ${maxRetries} retries` `` throw is unreachable from any
state with `retries ≤ maxRetries` (hence from the initial state
`retries = 0`). -/
theorem rateLimiter_retry_exhaustion :
    (∀ (opts : RateLimiterOptions) (times : List Int)
        (outcomes : List OpOutcome) (requests : List Int) (retries : Nat),
      retries ≤ opts.maxRetries →
      executeModel opts times outcomes requests retries
        ≠ .exhaustedRetriesError) ∧
    executeModel jupiterRateLimiterOptions [0, 1, 2, 3, 4]
        (List.replicate 4 .err429) [] 0 = .opFailure429 := by
  constructor
  · intro opts times
    induction times with
    | nil =>
        intro outcomes requests retries _
        simp [executeModel]
    | cons now restTimes ih =>
        intro outcomes requests retries hr
        simp only [executeModel, if_pos hr]
        by_cases hfull : (cleanupOldRequests opts now requests).length
            < opts.maxRequests
        · rw [if_pos hfull]
          match outcomes with
          | [] => simp
          | .ok :: _ => simp
          | .errOther :: _ => simp
          | .err429 :: restOutcomes =>
              by_cases hmax : opts.maxRetries < retries + 1
              · simp [hmax]
              · simp only [hmax, if_false]
                exact ih restOutcomes _ (retries + 1) (by omega)
        · rw [if_neg hfull]
          exact ih outcomes _ retries hr
  · decide

/-- C5 witness: the unreachability statement applied at a concrete
state. -/
theorem rateLimiter_retry_exhaustion_witness :
    executeModel jupiterRateLimiterOptions [0] [OpOutcome.ok] [] 0
      ≠ ExecResult.exhaustedRetriesError :=
  rateLimiter_retry_exhaustion.1 jupiterRateLimiterOptions [0]
    [OpOutcome.ok] [] 0 (by decide)

/-! ## Portfolio component (`Portfolio.tsx` lines 94-103) -/

/-- `aggregatedAssets.filter((asset) => asset.price * asset.amount > 0.02)`. -/
def portfolioAssets (aggregated : List AggregatedPortfolioItem) :
    List AggregatedPortfolioItem :=
  aggregated.filter (fun asset => 0.02 < asset.price * asset.amount)

/-- `assets.reduce((sum, asset) => sum + asset.price * asset.amount, 0)`. -/
def totalBalance (assets : List AggregatedPortfolioItem) : Rat :=
  assets.foldl (fun sum asset => sum + asset.price * asset.amount) 0

theorem foldl_add_eq_sum (v : AggregatedPortfolioItem → Rat) :
    ∀ (l : List AggregatedPortfolioItem) (init : Rat),
      l.foldl (fun sum a => sum + v a) init = init + (l.map v).sum := by
  intro l
  induction l with
  | nil => intro init; simp
  | cons a rest ih =>
      intro init
      simp only [List.foldl_cons, List.map_cons, List.sum_cons, ih]
      ring

/-- C4: the dust filter keeps exactly the items with USD value above 0.02,
`totalBalance` is the sum of the kept items' USD values, and a dust item
(value ≤ 0.02) contributes nothing: appending it changes neither the
final asset list nor the total. -/
theorem portfolio_dust_filter :
    ∀ (aggregated : List AggregatedPortfolioItem),
      (∀ a ∈ portfolioAssets aggregated, 0.02 < a.price * a.amount) ∧
      (∀ a ∈ aggregated, a.price * a.amount ≤ 0.02 →
        a ∉ portfolioAssets aggregated) ∧
      (totalBalance (portfolioAssets aggregated)
        = ((portfolioAssets aggregated).map
            (fun a => a.price * a.amount)).sum) ∧
      (∀ d, d.price * d.amount ≤ 0.02 →
        portfolioAssets (aggregated ++ [d]) = portfolioAssets aggregated ∧
        totalBalance (portfolioAssets (aggregated ++ [d]))
          = totalBalance (portfolioAssets aggregated)) := by
  intro aggregated
  refine ⟨?_, ?_, ?_, ?_⟩
  · intro a ha
    have := List.of_mem_filter ha
    simpa using this
  · intro a _ hle hmem
    have := List.of_mem_filter hmem
    simp only [decide_eq_true_eq] at this
    exact absurd this (not_lt.mpr hle)
  · rw [totalBalance, foldl_add_eq_sum, zero_add]
  · intro d hd
    have hfil : portfolioAssets (aggregated ++ [d])
        = portfolioAssets aggregated := by
      unfold portfolioAssets
      rw [List.filter_append]
      have : List.filter (fun asset =>
          decide (0.02 < asset.price * asset.amount)) [d] = [] := by
        simp [List.filter_singleton, not_lt.mpr hd]
      rw [this, List.append_nil]
    exact ⟨hfil, by rw [hfil]⟩

/-- The spec §8 dust item: price 0.001, amount 1 (USD value 0.001). -/
def exDustAgg : AggregatedPortfolioItem :=
  { address := "0xdust", name := "Dust", symbol := "DST", decimals := 18,
    logoURI := "dust.png", price := 0.001, amount := 1, priceChange24h := 0,
    chains := ["ethereum"], originalItems := [], isAggregated := false }

/-- C4 witness: the dust-filter theorem applied to the spec's concrete
dust item. -/
theorem portfolio_dust_filter_witness :
    exDustAgg.price * exDustAgg.amount ≤ 0.02 ∧
    exDustAgg ∉ portfolioAssets [exDustAgg] ∧
    portfolioAssets ([] ++ [exDustAgg]) = portfolioAssets [] ∧
    totalBalance (portfolioAssets ([] ++ [exDustAgg]))
      = totalBalance (portfolioAssets []) := by
  have hd : exDustAgg.price * exDustAgg.amount ≤ 0.02 := by
    simp only [exDustAgg]
    norm_num
  refine ⟨hd, ?_, ?_, ?_⟩
  · exact (portfolio_dust_filter [exDustAgg]).2.1 exDustAgg (by simp) hd
  · exact ((portfolio_dust_filter []).2.2.2 exDustAgg hd).1
  · exact ((portfolio_dust_filter []).2.2.2 exDustAgg hd).2

/-! ## DenylistCache (`denylistCache.ts`)

The IndexedDB object store is keyed by the `key` field (`keyPath: 'key'`),
so it is an exact-key map from key strings to entry timestamps; `put`
upserts by key.  Operations take the current clock as an argument and
return the updated store alongside their result. -/

/-- `TTL_MS = 24 * 60 * 60 * 1000` (24 hours). -/
def TTL_MS : Int := 24 * 60 * 60 * 1000

/-- `DENYLIST_MESSAGES`. -/
def DENYLIST_MESSAGES : List String := ["deny list", "denylist", "is invalid"]

/-- `createKey`: `` `${chainId}-${token.toLowerCase()}` ``. -/
def createKey (token : String) (chainId : String) : String :=
  chainId ++ "-" ++ asciiLower token

/-- `isExpired`: `Date.now() - timestamp > TTL_MS`. -/
def isExpired (now timestamp : Int) : Bool :=
  decide (TTL_MS < now - timestamp)

/-- The denylist backing store: key string to entry timestamp. -/
abbrev DenylistStore := List (String × Int)

/-- `addToDenylist`: `store.put({ key, timestamp: Date.now() })`. -/
def addToDenylist (store : DenylistStore) (token chainId : String)
    (now : Int) : DenylistStore :=
  mapSet store (createKey token chainId) now

/-- `isDenylisted`: miss returns false; an expired hit is deleted and
returns false; a fresh hit returns true. -/
def isDenylisted (store : DenylistStore) (token chainId : String)
    (now : Int) : Bool × DenylistStore :=
  match mapGet store (createKey token chainId) with
  | none => (false, store)
  | some ts =>
      if isExpired now ts then
        (false, mapDelete store (createKey token chainId))
      else (true, store)

/-- `needle` occurs as a contiguous run inside the character list
(JS `String.prototype.includes`). -/
def listContainsSub (needle : List Char) : List Char → Bool
  | [] => needle.isEmpty
  | c :: rest => needle.isPrefixOf (c :: rest) || listContainsSub needle rest

/-- JS `hay.includes(needle)`. -/
def containsSubstr (hay needle : String) : Bool :=
  listContainsSub needle.data hay.data

/-- `isDenylistError`: some fixed phrase occurs in the lowercased
message. -/
def isDenylistError (errorMessage : String) : Bool :=
  DENYLIST_MESSAGES.any
    (fun phrase => containsSubstr (asciiLower errorMessage) phrase)

/-- JS `\s` on the ASCII range (space, tab, newline, carriage return,
vertical tab, form feed). -/
def isJsWhitespace (c : Char) : Bool :=
  c = ' ' || c = '\t' || c = '\n' || c = '\r' || c.toNat = 11 || c.toNat = 12

/-- The character class `[a-fA-F0-9x]` of `parseTokenFromError`. -/
def isHexTokenChar (c : Char) : Bool :=
  c.isDigit || ('a' ≤ c && c ≤ 'f') || ('A' ≤ c && c ≤ 'F') || c = 'x'

/-- Greedy non-empty span of a character class.  The classes used below
are pairwise disjoint from their successors in the pattern, so the greedy
match is equivalent to the regex engine's backtracking match. -/
def span1 (p : Char → Bool) (cs : List Char) :
    Option (List Char × List Char) :=
  let taken := cs.takeWhile p
  if taken.isEmpty then none else some (taken, cs.dropWhile p)

/-- Anchored match of `/token\s+(\d+)-([a-fA-F0-9x]+)/i` at the head of
the character list, returning `(chainId, token)` on success. -/
def matchTokenAt (cs : List Char) : Option (String × String) :=
  if (cs.take 5).map asciiLowerChar = "token".data then
    match span1 isJsWhitespace (cs.drop 5) with
    | none => none
    | some (_, r1) =>
        match span1 Char.isDigit r1 with
        | none => none
        | some (ds, r2) =>
            match r2 with
            | '-' :: r3 =>
                match span1 isHexTokenChar r3 with
                | none => none
                | some (hs, _) => some (⟨ds⟩, ⟨hs⟩)
            | _ => none
  else none

/-- Left-to-right scan for the first position where the pattern matches
(JS `String.prototype.match` with an unanchored regex). -/
def parseScan : List Char → Option (String × String)
  | [] => none
  | c :: rest =>
      match matchTokenAt (c :: rest) with
      | some r => some r
      | none => parseScan rest

/-- `parseTokenFromError`, returning `{ chainId, token }` as a pair. -/
def parseTokenFromError (errorMessage : String) : Option (String × String) :=
  parseScan errorMessage.data

/-- `handlePotentialDenylistError(errorMessage, token?, chainId?)`:
recognise the error, prefer the parsed `chainId-address` pair, fall back
to the explicitly supplied (truthy) token/chainId. -/
def handlePotentialDenylistError (store : DenylistStore)
    (errorMessage : String) (token chainId : Option String) (now : Int) :
    Bool × DenylistStore :=
  if ¬ isDenylistError errorMessage then (false, store)
  else
    match parseTokenFromError errorMessage with
    | some (pChainId, pToken) => (true, addToDenylist store pToken pChainId now)
    | none =>
        match token, chainId with
        | some t, some c =>
            if t ≠ "" ∧ c ≠ "" then (true, addToDenylist store t c now)
            else (false, store)
        | _, _ => (false, store)

/-- The spec §8 denylist error text, with a concrete address standing for
the elided `0xABC...`. -/
def cxDenylistError : String :=
  "Token 42161-0xABCdef0123 is invalid or in deny list."

/-- C6: handling the denylist error writes an entry; a lowercase lookup
of the same token then returns true while at most the 24h TTL has
elapsed, and returns false once strictly more than the TTL has elapsed. -/
theorem denylist_roundtrip :
    ∀ (store : DenylistStore) (t0 now1 now2 : Int),
      (handlePotentialDenylistError store cxDenylistError none none t0).1
        = true ∧
      (now1 - t0 ≤ TTL_MS →
        (isDenylisted
          (handlePotentialDenylistError store cxDenylistError none none t0).2
          "0xabcdef0123" "42161" now1).1 = true) ∧
      (TTL_MS < now2 - t0 →
        (isDenylisted
          (handlePotentialDenylistError store cxDenylistError none none t0).2
          "0xabcdef0123" "42161" now2).1 = false) := by
  intro store t0 now1 now2
  have hdl : isDenylistError cxDenylistError = true := by decide
  have hparse : parseTokenFromError cxDenylistError
      = some ("42161", "0xABCdef0123") := by decide
  have hkey : createKey "0xABCdef0123" "42161" = "42161-0xabcdef0123" := by
    decide
  have hkey2 : createKey "0xabcdef0123" "42161" = "42161-0xabcdef0123" := by
    decide
  have hhandle : handlePotentialDenylistError store cxDenylistError none none t0
      = (true, mapSet store "42161-0xabcdef0123" t0) := by
    simp only [handlePotentialDenylistError, hdl, hparse, addToDenylist, hkey]
    simp
  rw [hhandle]
  refine ⟨rfl, ?_, ?_⟩
  · intro h1
    have hexp : isExpired now1 t0 = false := by
      simp only [isExpired, decide_eq_false_iff_not]
      omega
    simp only [isDenylisted, hkey2, mapGet_mapSet_self, hexp]
    simp
  · intro h2
    have hexp : isExpired now2 t0 = true := by
      simp only [isExpired, decide_eq_true_eq]
      omega
    simp only [isDenylisted, hkey2, mapGet_mapSet_self, hexp]
    simp

/-- C6 witness: the round trip at the concrete boundary instants. -/
theorem denylist_roundtrip_witness :
    (isDenylisted
      (handlePotentialDenylistError [] cxDenylistError none none 0).2
      "0xabcdef0123" "42161" TTL_MS).1 = true ∧
    (isDenylisted
      (handlePotentialDenylistError [] cxDenylistError none none 0).2
      "0xabcdef0123" "42161" (TTL_MS + 1)).1 = false :=
  ⟨(denylist_roundtrip [] 0 TTL_MS (TTL_MS + 1)).2.1 (by decide),
   (denylist_roundtrip [] 0 TTL_MS (TTL_MS + 1)).2.2 (by decide)⟩

/-! ## Token metadata cache keys and `enrichTokenMetadata`
(`evmPortfolio.ts`) -/

/-- `TokenMetadata` (`types.ts` via spec §3 and construction sites). -/
structure TokenMetadata where
  address : String
  name : String
  symbol : String
  decimals : Int
  logoURI : String
  chainId : Int
  volume24h : Option Rat
deriving Repr, DecidableEq

/-- Modelled from the spec: `tokenMetadataCache` (defined in
`localStorage.ts`, which is not under `src/`; only its callers are) is a
`PersistentExpiringCache` store "queryable by exact key only" (spec §6)
whose metadata instance has no effective expiry (spec §4.2), i.e. an
exact-key association store. -/
def metadataCacheGet (store : List (String × TokenMetadata))
    (key : String) : Option TokenMetadata :=
  mapGet store key

/-- Modelled from the spec: `tokenMetadataCache.set` writes under the
exact key string. -/
def metadataCacheSet (store : List (String × TokenMetadata))
    (key : String) (value : TokenMetadata) :
    List (String × TokenMetadata) :=
  mapSet store key value

/-- The cache key built by `enrichTokenMetadata` (line 115):
`` `${address}-${network.chainId}` `` — the raw address, with no case
normalization. -/
def evmMetadataCacheKey (address chainId : String) : String :=
  address ++ "-" ++ chainId

/-- A throwaway metadata record. -/
def mdStub : TokenMetadata :=
  { address := "0xAbC", name := "Stub", symbol := "STB", decimals := 18,
    logoURI := "", chainId := 1, volume24h := none }

/-- C7 (counterexample): the metadata cache key is *not*
case-normalized: a value stored under the checksummed address "0xAbC" is
missed by a lookup under the lowercase "0xabc", although the two
addresses differ only in letter case. -/
theorem metadataCache_case_miss_counterexample :
    metadataCacheGet
        (metadataCacheSet [] (evmMetadataCacheKey "0xAbC" "1") mdStub)
        (evmMetadataCacheKey "0xabc" "1") = none ∧
    asciiLower "0xAbC" = asciiLower "0xabc" := by
  constructor
  · decide
  · decide

/-- C7 (amended): the *denylist* cache key lowercases the token address,
so denylist lookups agree on all case variants of an address and a
freshly written entry is found under any case variant; the *metadata*
cache key uses the raw address, so a case variant can miss there. -/
theorem cache_key_normalization :
    (∀ (token token' chainId : String) (store : DenylistStore) (now : Int),
      asciiLower token = asciiLower token' →
      isDenylisted store token chainId now
        = isDenylisted store token' chainId now) ∧
    (∀ (token token' chainId : String) (store : DenylistStore) (t0 now : Int),
      asciiLower token = asciiLower token' →
      now - t0 ≤ TTL_MS →
      (isDenylisted (addToDenylist store token chainId t0) token' chainId
        now).1 = true) ∧
    (metadataCacheGet
        (metadataCacheSet [] (evmMetadataCacheKey "0xAbC" "1") mdStub)
        (evmMetadataCacheKey "0xabc" "1") = none) := by
  have hck : ∀ (token token' chainId : String),
      asciiLower token = asciiLower token' →
      createKey token chainId = createKey token' chainId := by
    intro token token' chainId h
    unfold createKey
    rw [h]
  refine ⟨?_, ?_, ?_⟩
  · intro token token' chainId store now h
    unfold isDenylisted
    rw [hck token token' chainId h]
  · intro token token' chainId store t0 now h hfresh
    have hexp : isExpired now t0 = false := by
      simp only [isExpired, decide_eq_false_iff_not]
      omega
    unfold isDenylisted addToDenylist
    rw [← hck token token' chainId h, mapGet_mapSet_self]
    simp [hexp]
  · decide

/-- C7 witness: the denylist key-agreement statement at a concrete
checksummed/lowercase pair. -/
theorem cache_key_normalization_witness :
    isDenylisted [] "0xAbC" "42161" 0 = isDenylisted [] "0xabc" "42161" 0 :=
  cache_key_normalization.1 "0xAbC" "0xabc" "42161" [] 0 (by decide)

/-- `LifiToken` (`types.ts`, fields read by `enrichTokenMetadata`). -/
structure LifiToken where
  name : Option String
  symbol : Option String
  decimals : Option Int
  logoURI : Option String
deriving Repr, DecidableEq

/-- Inline token metadata of the Alchemy response (`TokenMetadataSchema`:
every field nullable/optional). -/
structure AlchemyTokenMetadata where
  symbol : Option String
  decimals : Option Int
  name : Option String
  logo : Option String
deriving Repr, DecidableEq

/-- One token of the Alchemy response (`TokenSchema`). -/
structure AlchemyToken where
  network : String
  tokenAddress : Option String
  tokenBalance : String
  tokenMetadata : Option AlchemyTokenMetadata
deriving Repr, DecidableEq

/-- One entry of `SUPPORTED_NETWORKS`. -/
structure NetworkInfo where
  chainId : String
  networkId : String
  chain : String
deriving Repr, DecidableEq

/-- JS truthiness of an optional string (`null`/`undefined` and `""` are
falsy). -/
def jsTruthyStr : Option String → Bool
  | none => false
  | some s => decide (s ≠ "")

/-- JS truthiness of an optional number (`null`/`undefined` and `0` are
falsy). -/
def jsTruthyInt : Option Int → Bool
  | none => false
  | some n => decide (n ≠ 0)

/-- JS `a || d` on an optional string. -/
def jsOrStr (o : Option String) (d : String) : String :=
  match o with
  | none => d
  | some s => if s = "" then d else s

def zeroAddress : String := "0x0000000000000000000000000000000000000000"

/-- JS `parseInt` on the decimal `chainId` constants of
`SUPPORTED_NETWORKS`. -/
def parseIntDecimal (s : String) : Int :=
  s.data.foldl (fun acc c => acc * 10 + ((c.toNat : Int) - ('0'.toNat : Int))) 0

/-- The completeness test of lines 124-130:
`tokenMetadata.name && .symbol && .decimals && .logo` (all truthy — in
particular `decimals` must be non-zero). -/
def inlineComplete (tm : AlchemyTokenMetadata) : Bool :=
  jsTruthyStr tm.name && jsTruthyStr tm.symbol && jsTruthyInt tm.decimals &&
    jsTruthyStr tm.logo

/-- Lines 144-165: the `getAnyToken` fallback path.  `fallback` is the
(already awaited) result of `getAnyToken`; `!metadata || !metadata.decimals`
rejects a missing result and a zero/missing `decimals`. -/
def enrichFallback (address : String) (network : NetworkInfo)
    (fallback : Option LifiToken) : Option TokenMetadata :=
  match fallback with
  | none => none
  | some md =>
      match md.decimals with
      | none => none
      | some d =>
          if d = 0 then none
          else
            some { address := address, name := md.name.getD "",
                   symbol := md.symbol.getD "", decimals := d,
                   logoURI := md.logoURI.getD "",
                   chainId := parseIntDecimal network.chainId,
                   volume24h := none }

/-- `enrichTokenMetadata` (lines 108-173) as a pure decision function:
`cached` is the result of the cache `get`, `fallback` the result of
`getAnyToken`. -/
def enrichTokenMetadata (token : AlchemyToken) (network : NetworkInfo)
    (cached : Option TokenMetadata) (fallback : Option LifiToken) :
    Option TokenMetadata :=
  let address := jsOrStr token.tokenAddress zeroAddress
  match cached with
  | some m => some m
  | none =>
      match token.tokenMetadata with
      | some tm =>
          if inlineComplete tm then
            some { address := address, name := tm.name.getD "",
                   symbol := tm.symbol.getD "", decimals := tm.decimals.getD 0,
                   logoURI := tm.logo.getD "",
                   chainId := parseIntDecimal network.chainId,
                   volume24h := none }
          else enrichFallback address network fallback
      | none => enrichFallback address network fallback

/-- C10: a token with `decimals = 0` is never accepted on the EVM path:
inline metadata with `decimals = 0` fails the completeness test and falls
through to the fallback lookup, and a fallback result with missing or
zero `decimals` yields no metadata at all — so the token is dropped
rather than converted with divisor `10^0`. -/
theorem evm_zero_decimals_dropped :
    ∀ (token : AlchemyToken) (network : NetworkInfo)
      (tm : AlchemyTokenMetadata) (fallback : Option LifiToken),
      token.tokenMetadata = some tm → tm.decimals = some 0 →
      (inlineComplete tm = false ∧
        enrichTokenMetadata token network none fallback
          = enrichFallback (jsOrStr token.tokenAddress zeroAddress) network
              fallback) ∧
      (∀ md : LifiToken, md.decimals = none ∨ md.decimals = some 0 →
        enrichFallback (jsOrStr token.tokenAddress zeroAddress) network
            (some md) = none) ∧
      enrichFallback (jsOrStr token.tokenAddress zeroAddress) network none
        = none := by
  intro token network tm fallback htm hdec
  have hic : inlineComplete tm = false := by
    simp [inlineComplete, jsTruthyInt, hdec]
  refine ⟨⟨hic, ?_⟩, ?_, rfl⟩
  · simp only [enrichTokenMetadata, htm, hic]
    simp
  · intro md hmd
    rcases hmd with h | h <;> simp [enrichFallback, h]

/-- Inline metadata that is complete except for `decimals = 0`. -/
def cxInlineZeroDecimals : AlchemyTokenMetadata :=
  { symbol := some "TKN", decimals := some 0, name := some "Token",
    logo := some "logo.png" }

/-- An upstream token whose inline metadata carries `decimals = 0`. -/
def cxAlchemyToken : AlchemyToken :=
  { network := "eth-mainnet", tokenAddress := some "0xtoken",
    tokenBalance := "0x01", tokenMetadata := some cxInlineZeroDecimals }

def cxNetwork : NetworkInfo :=
  { chainId := "1", networkId := "eth-mainnet", chain := "ethereum" }

/-- A fallback result that also reports `decimals = 0`. -/
def cxLifiZeroDecimals : LifiToken :=
  { name := some "Token", symbol := some "TKN", decimals := some 0,
    logoURI := some "logo.png" }

/-- C10 witness: the concrete zero-decimals token is dropped end to end. -/
theorem evm_zero_decimals_dropped_witness :
    inlineComplete cxInlineZeroDecimals = false ∧
    enrichTokenMetadata cxAlchemyToken cxNetwork none
        (some cxLifiZeroDecimals) = none := by
  have h := evm_zero_decimals_dropped cxAlchemyToken cxNetwork
    cxInlineZeroDecimals (some cxLifiZeroDecimals) rfl rfl
  exact ⟨h.1.1, by
    rw [h.1.2]
    exact h.2.1 cxLifiZeroDecimals (Or.inr rfl)⟩

end Listen
